import Mathlib

/-!
# Verification of the Kukicha tree-sitter external scanner

A shallow embedding of `src/editors/zed/grammars/tree-sitter-kukicha/src/scanner.c`:
the indentation-sensitive tokenizer that emits INDENT / DEDENT / NEWLINE tokens
and the byte codec that persists its state between incremental re-scans.

The C scanner's state is a fixed array `uint16_t indent_stack[100]` plus two
`uint16_t` counters.  We model the array as a `List Nat` of length 100 (reads
via `List.getD`, writes via `List.set`) and keep all machine arithmetic
explicit: `uint16_t` overflow is `% 65536`, byte truncation is `% 256`.
The tree-sitter lexer handle is modelled as the remaining input plus the
current column (tree-sitter resets the column to 0 after a `'\n'`).

The C loops are embedded as structurally recursive functions: loops that walk
the input recurse on the input list, and the two codec loops and the
line-start loop take an explicit iteration bound that is always sufficient
(each iteration of the C loop consumes input or increments its index), so that
every definition evaluates by kernel reduction on concrete inputs.
-/

/-- Constant `MAX_INDENT_DEPTH` from scanner.c line 10. -/
def MAX_INDENT_DEPTH : Nat := 100

/-- Constant `TREE_SITTER_SERIALIZATION_BUFFER_SIZE` from tree-sitter's parser.h (1024). -/
def TREE_SITTER_SERIALIZATION_BUFFER_SIZE : Nat := 1024

/-- The `enum TokenType` from scanner.c lines 12–16. -/
inductive TokenType where
  | INDENT
  | DEDENT
  | NEWLINE
deriving DecidableEq, Repr

/-- The `Scanner` struct from scanner.c lines 18–22.
`indent_stack` models the whole 100-entry array (length 100 in every state the
C program builds); `indent_depth` and `pending_dedents` are the two counters. -/
structure Scanner where
  indent_stack : List Nat
  indent_depth : Nat
  pending_dedents : Nat
deriving DecidableEq, Repr

/-- The `TSLexer` cursor: remaining input and current column.
The column is the number of characters consumed since the last `'\n'`. -/
structure Lexer where
  input : List Char
  col : Nat
deriving DecidableEq, Repr

/-- Cursor peek `lexer->lookahead`: the next character (`none` at end of input). -/
def Lexer.lookahead (l : Lexer) : Option Char :=
  l.input.head?

/-- Cursor step `lexer->advance` / `skip`: consume one character.  Both the
token-including `advance` and the token-excluding `skip` move the cursor the
same way; the difference (token spans) is not part of the scanner state. -/
def Lexer.adv (l : Lexer) : Lexer :=
  match l.input with
  | [] => l
  | c :: rest => { input := rest, col := if c = '\n' then 0 else l.col + 1 }

/-- Function `tree_sitter_kukicha_external_scanner_create` (scanner.c lines 32–43):
depth 1, `indent_stack[0] = 0`, remaining array entries zeroed. -/
def createScanner : Scanner :=
  { indent_stack := List.replicate MAX_INDENT_DEPTH 0
    indent_depth := 1
    pending_dedents := 0 }

theorem Lexer.adv_input_length_le (l : Lexer) : l.adv.input.length ≤ l.input.length := by
  cases h : l.input <;> simp [Lexer.adv, h]

theorem Lexer.adv_input_length_lt {l : Lexer} {c : Char} (h : l.lookahead = some c) :
    l.adv.input.length < l.input.length := by
  cases hi : l.input with
  | nil => simp [Lexer.lookahead, hi] at h
  | cons a rest => simp [Lexer.adv, hi]

/-- The leading-whitespace counter (scanner.c lines 122–132), walking the
input directly: a space adds 1, a tab adds 4, into a `uint16_t` accumulator
(hence `% 65536`). -/
def countIndentGo : List Char → Nat → Nat → Nat × Lexer
  | c :: rest, col, n =>
    if c = ' ' then countIndentGo rest (col + 1) ((n + 1) % 65536)
    else if c = '\t' then countIndentGo rest (col + 1) ((n + 4) % 65536)
    else (n, ⟨c :: rest, col⟩)
  | [], col, n => (n, ⟨[], col⟩)

/-- The leading-whitespace counter on a cursor. -/
def countIndent (l : Lexer) (n : Nat) : Nat × Lexer :=
  countIndentGo l.input l.col n

/-- The comment-body skip (scanner.c line 149): consume until `'\n'`, `'\r'`
or end of input, without consuming the terminator. -/
def skipToEolGo : List Char → Nat → Lexer
  | c :: rest, col =>
    if c = '\n' ∨ c = '\r' then ⟨c :: rest, col⟩
    else skipToEolGo rest (col + 1)
  | [], col => ⟨[], col⟩

/-- The comment-body skip on a cursor. -/
def skipToEol (l : Lexer) : Lexer :=
  skipToEolGo l.input l.col

/-- The comment-line branch (scanner.c lines 148–158): skip the comment body,
then consume its line terminator (a `'\n'` or `'\r'`, the latter optionally
followed by one more `'\n'`). -/
def commentSkip (l : Lexer) : Lexer :=
  if (skipToEol l).lookahead = some '\n' ∨ (skipToEol l).lookahead = some '\r' then
    if (skipToEol l).adv.lookahead = some '\n' then (skipToEol l).adv.adv
    else (skipToEol l).adv
  else skipToEol l

/-- The trailing-whitespace skip before newline recognition
(scanner.c lines 207–209). -/
def skipTrailingWsGo : List Char → Nat → Lexer
  | c :: rest, col =>
    if c = ' ' ∨ c = '\t' then skipTrailingWsGo rest (col + 1)
    else ⟨c :: rest, col⟩
  | [], col => ⟨[], col⟩

/-- The trailing-whitespace skip on a cursor. -/
def skipTrailingWs (l : Lexer) : Lexer :=
  skipTrailingWsGo l.input l.col

/-- Newline recognition (scanner.c lines 211–233): accept `'\n'` (optionally
followed by `'\r'`), `'\r'` (optionally followed by `'\n'`), or end of input.
Returns the characters consumed as the terminator together with the cursor
after them. -/
def newlineCheck (l : Lexer) : Option (List Char × Lexer) :=
  if l.lookahead = some '\n' then
    if l.adv.lookahead = some '\r' then some (['\n', '\r'], l.adv.adv)
    else some (['\n'], l.adv)
  else if l.lookahead = some '\r' then
    if l.adv.lookahead = some '\n' then some (['\r', '\n'], l.adv.adv)
    else some (['\r'], l.adv)
  else if l.input = [] then
    some ([], l)
  else
    none

/-- The dedent pop loop (scanner.c lines 185–190): pop every stack level whose
width exceeds the new indentation, never dropping below depth 1 (the loop
guard is `depth > 1 && stack[depth-1] > indent`).  Returns the new depth and
the number of levels popped. -/
def popLoop (stack : List Nat) : Nat → Nat → Nat × Nat
  | depth + 2, indent =>
    if indent < stack.getD (depth + 1) 0 then
      ((popLoop stack (depth + 1) indent).1, (popLoop stack (depth + 1) indent).2 + 1)
    else
      (depth + 2, 0)
  | depth, _ => (depth, 0)

/-- Outcome of the line-start structural loop: emit a token (with the mutated
scanner), return "no match", or fall through to newline recognition.  The C
code mutates the scanner only on the emitting branch. -/
inductive LoopOut where
  | tok : TokenType → Scanner → Lexer → LoopOut
  | nomatch : Lexer → LoopOut
  | fallthru : Lexer → LoopOut
deriving DecidableEq, Repr

/-- The line-start structural loop (scanner.c lines 121–201): count leading
whitespace; consume blank lines and comment lines as trivia; at end of input
pop one level per call while DEDENT is requested; at a content line compare
the measured width with the stack top and emit INDENT (push capped at
`MAX_INDENT_DEPTH`) or DEDENT (multi-pop, surplus stored in
`pending_dedents`), otherwise fall through.  `fuel` bounds the number of
trivia lines consumed; every iteration of the C loop consumes at least one
character, so `lineLoop` below supplies `l.input.length + 1`, which is always
sufficient (the `fuel = 0` case is never reached). -/
def lineLoopGo (v : TokenType → Bool) (s : Scanner) : Nat → Lexer → LoopOut
  | 0, l => .nomatch l
  | fuel + 1, l =>
    if (countIndent l 0).2.lookahead = some '\n' then
      lineLoopGo v s fuel (countIndent l 0).2.adv
    else if (countIndent l 0).2.lookahead = some '\r' then
      lineLoopGo v s fuel
        (if (countIndent l 0).2.adv.lookahead = some '\n' then (countIndent l 0).2.adv.adv
         else (countIndent l 0).2.adv)
    else if (countIndent l 0).2.lookahead = some '#' then
      lineLoopGo v s fuel (commentSkip (countIndent l 0).2)
    else if (countIndent l 0).2.input = [] then
      if 1 < s.indent_depth ∧ v .DEDENT then
        .tok .DEDENT { s with indent_depth := s.indent_depth - 1 } (countIndent l 0).2
      else
        .nomatch (countIndent l 0).2
    else
      if s.indent_stack.getD (s.indent_depth - 1) 0 < (countIndent l 0).1 ∧ v .INDENT then
        .tok .INDENT
          (if s.indent_depth < MAX_INDENT_DEPTH then
            { s with indent_stack := s.indent_stack.set s.indent_depth (countIndent l 0).1
                     indent_depth := s.indent_depth + 1 }
          else s) (countIndent l 0).2
      else if (countIndent l 0).1 < s.indent_stack.getD (s.indent_depth - 1) 0 ∧ v .DEDENT then
        if 0 < (popLoop s.indent_stack s.indent_depth (countIndent l 0).1).2 then
          .tok .DEDENT
            { s with indent_depth := (popLoop s.indent_stack s.indent_depth (countIndent l 0).1).1
                     pending_dedents := (popLoop s.indent_stack s.indent_depth (countIndent l 0).1).2 - 1 }
            (countIndent l 0).2
        else
          .fallthru (countIndent l 0).2
      else
        .fallthru (countIndent l 0).2

/-- The line-start structural loop with its (always sufficient) bound. -/
def lineLoop (v : TokenType → Bool) (s : Scanner) (l : Lexer) : LoopOut :=
  lineLoopGo v s (l.input.length + 1) l

/-- Function `tree_sitter_kukicha_external_scanner_scan` (scanner.c lines 102–237):
pending dedents first, then the line-start structural loop (only at column 0
with INDENT or DEDENT requested), then newline recognition (only with NEWLINE
requested).  Returns the emitted token (or `none`), the scanner state after
the call, and the cursor after the call. -/
def scan (s : Scanner) (v : TokenType → Bool) (l : Lexer) :
    Option TokenType × Scanner × Lexer :=
  if 0 < s.pending_dedents ∧ v .DEDENT then
    (some .DEDENT, { s with pending_dedents := s.pending_dedents - 1 }, l)
  else
    match (if l.col = 0 ∧ (v .INDENT ∨ v .DEDENT) then lineLoop v s l else .fallthru l) with
    | .tok t s' l' => (some t, s', l')
    | .nomatch l' => (none, s, l')
    | .fallthru l' =>
      if v .NEWLINE then
        match newlineCheck (skipTrailingWs l') with
        | some r => (some .NEWLINE, s, r.2)
        | none => (none, s, skipTrailingWs l')
      else
        (none, s, l')

/-- All three token kinds requested (`valid_symbols` all true). -/
def validAll : TokenType → Bool := fun _ => true

/-- Only DEDENT requested. -/
def validDedentOnly : TokenType → Bool := fun t => t = TokenType.DEDENT

/-- Iterated scanning: `n` successive scan calls with the same requested kinds, threading the
scanner state and the cursor; returns the list of call results. -/
def scanN : Nat → Scanner → (TokenType → Bool) → Lexer →
    List (Option TokenType) × Scanner × Lexer
  | 0, s, _, l => ([], s, l)
  | n + 1, s, v, l =>
    let r := scan s v l
    let rest := scanN n r.2.1 v r.2.2
    (r.1 :: rest.1, rest.2)

/-- Result of driving the engine over a document (see `drive`). -/
structure DriveResult where
  toks : List TokenType
  scanner : Scanner
  lexer : Lexer
  finished : Bool
  overflow : Bool
deriving DecidableEq, Repr

/-- The driver: repeatedly call `scan` with all token kinds requested.  When a
token is emitted, record it and continue; when the engine declines, the
grammar's ordinary tokenizer consumes one character of content and the driver
continues, or, if the cursor is at end of input, the drive is `finished`.
`overflow` records whether some INDENT was emitted while the stack was
already full (the capped push of scanner.c lines 176–182). -/
def drive : Nat → Scanner → Lexer → DriveResult
  | 0, s, l => ⟨[], s, l, false, false⟩
  | fuel + 1, s, l =>
    match scan s validAll l with
    | (some t, s', l') =>
      let r := drive fuel s' l'
      ⟨t :: r.toks, r.scanner, r.lexer, r.finished,
        ((t = TokenType.INDENT ∧ MAX_INDENT_DEPTH ≤ s.indent_depth : Prop) || r.overflow : Bool)⟩
    | (none, s', l') =>
      if l'.input = [] then ⟨[], s', l', true, false⟩
      else drive fuel s' l'.adv

/-- The serialization loop (scanner.c lines 60–63): two bytes per stack entry
(low byte then high byte), written while `i < depth` and the running size
stays below the buffer capacity; `size` starts at 2 (the two header bytes).
`fuel` is a structural bound on the iteration count; `serialize` supplies
`depth`, which is always sufficient since `i` starts at 0 and increases. -/
def serializeGo (stack : List Nat) (depth : Nat) : Nat → Nat → Nat → List Nat
  | fuel + 1, i, size =>
    if i < depth ∧ size < TREE_SITTER_SERIALIZATION_BUFFER_SIZE then
      (stack.getD i 0 % 256) :: (stack.getD i 0 / 256 % 256) ::
        serializeGo stack depth fuel (i + 1) (size + 2)
    else
      []
  | 0, _, _ => []

/-- Function `tree_sitter_kukicha_external_scanner_serialize` (scanner.c lines 49–66):
one byte of `pending_dedents`, one byte of `indent_depth` (both truncated to a
byte, as the C `char` casts do), then the stack entries little-endian. -/
def serialize (s : Scanner) : List Nat :=
  (s.pending_dedents % 256) :: (s.indent_depth % 256) ::
    serializeGo s.indent_stack s.indent_depth s.indent_depth 0 2

/-- The deserialization loop (scanner.c lines 92–95): restore stack entries
while `i < depth` and at least two bytes of the buffer remain
(`pos + 1 < len`, where `pos = 2 + 2 * i`).  Buffer bytes are read as
`unsigned char`, hence the `% 256`.  `fuel` is a structural bound on the
iteration count; `deserialize` supplies `depth`, always sufficient. -/
def deserializeGo (buf : List Nat) (depth len : Nat) : Nat → Nat → List Nat → List Nat
  | fuel + 1, i, stack =>
    if i < depth ∧ 2 + 2 * i + 1 < len then
      deserializeGo buf depth len fuel (i + 1)
        (stack.set i (buf.getD (2 + 2 * i) 0 % 256 + buf.getD (2 + 2 * i + 1) 0 % 256 * 256))
    else
      stack
  | 0, _, stack => stack

/-- Function `tree_sitter_kukicha_external_scanner_deserialize` (scanner.c lines
68–96): reset to the fresh state, then (defensively) restore
`pending_dedents`, the depth (clamped at `MAX_INDENT_DEPTH`), and as many
stack entries as the buffer still covers. -/
def deserialize (s : Scanner) (buf : List Nat) : Scanner :=
  let s0 : Scanner :=
    { s with pending_dedents := 0, indent_depth := 1
             indent_stack := s.indent_stack.set 0 0 }
  if buf.length = 0 then s0
  else if buf.length ≤ 1 then
    { s0 with pending_dedents := buf.getD 0 0 % 256 }
  else
    let depth0 := buf.getD 1 0 % 256
    let depth := if MAX_INDENT_DEPTH < depth0 then MAX_INDENT_DEPTH else depth0
    { s0 with pending_dedents := buf.getD 0 0 % 256
              indent_depth := depth
              indent_stack := deserializeGo buf depth buf.length depth 0 s0.indent_stack }

/-- The scanner states reachable from the fresh state by scan calls (with any
requested kinds and any input at each call). -/
inductive Reachable : Scanner → Prop where
  | init : Reachable createScanner
  | step : ∀ {s : Scanner} (v : TokenType → Bool) (l : Lexer),
      Reachable s → Reachable (scan s v l).2.1

/-- A 101-line staircase document: line `w` (for `w = 0 .. 100`) is indented
to width `w` (as `w / 4` tabs, counted 4 wide, plus `w % 4` spaces) and holds
one content character; its nesting is one level deeper than the stack
capacity `MAX_INDENT_DEPTH`. -/
def deepDoc : List Char :=
  ((List.range 101).map
    (fun w => List.replicate (w / 4) '\t' ++ List.replicate (w % 4) ' ' ++ ['x', '\n'])).flatten

/-- The five-line document whose content lines sit at indentation widths
0, 4, 8, 4, 0. -/
def docWidths04840 : List Char :=
  (([0, 4, 8, 4, 0] : List Nat).map
    (fun w => List.replicate w ' ' ++ ['x', '\n'])).flatten

/-! ## Basic properties of the input-walking loops -/

theorem countIndentGo_length_le (inp : List Char) (col n : Nat) :
    (countIndentGo inp col n).2.input.length ≤ inp.length := by
  induction inp generalizing col n with
  | nil => simp [countIndentGo]
  | cons c rest ih =>
    rw [countIndentGo]
    split
    · exact le_trans (ih _ _) (Nat.le_succ _)
    · split
      · exact le_trans (ih _ _) (Nat.le_succ _)
      · simp

theorem countIndent_length_le (l : Lexer) (n : Nat) :
    (countIndent l n).2.input.length ≤ l.input.length :=
  countIndentGo_length_le l.input l.col n

theorem countIndentGo_lt (inp : List Char) (col n : Nat) (h : n < 65536) :
    (countIndentGo inp col n).1 < 65536 := by
  induction inp generalizing col n with
  | nil => simpa [countIndentGo]
  | cons c rest ih =>
    rw [countIndentGo]
    split
    · exact ih _ _ (Nat.mod_lt _ (by omega))
    · split
      · exact ih _ _ (Nat.mod_lt _ (by omega))
      · simpa

theorem countIndent_lt (l : Lexer) : (countIndent l 0).1 < 65536 :=
  countIndentGo_lt l.input l.col 0 (by omega)

/-- The whitespace counter stops on a character that is neither a space nor a
tab (or at end of input). -/
theorem countIndentGo_head (inp : List Char) (col n : Nat) :
    (countIndentGo inp col n).2.input = [] ∨
    ∃ c rest, (countIndentGo inp col n).2.input = c :: rest ∧ c ≠ ' ' ∧ c ≠ '\t' := by
  induction inp generalizing col n with
  | nil => simp [countIndentGo]
  | cons c rest ih =>
    rw [countIndentGo]
    split
    · exact ih _ _
    · split
      · exact ih _ _
      · rename_i h1 h2
        exact Or.inr ⟨c, rest, rfl, h1, h2⟩

/-- The pop loop (scanner.c lines 185–190) pops `count` levels with
`depth' + count = depth`, and pops only while the depth stays above 1. -/
theorem popLoop_spec (stack : List Nat) (depth indent : Nat) :
    (popLoop stack depth indent).1 + (popLoop stack depth indent).2 = depth ∧
    (0 < (popLoop stack depth indent).2 → 1 ≤ (popLoop stack depth indent).1) := by
  induction depth using Nat.strong_induction_on with
  | _ depth ih =>
    match depth with
    | 0 => simp [popLoop]
    | 1 => simp [popLoop]
    | d + 2 =>
      rw [popLoop]
      split
      · have h := ih (d + 1) (by omega)
        refine ⟨by omega, fun _ => ?_⟩
        rcases Nat.eq_zero_or_pos (popLoop stack (d + 1) indent).2 with h0 | h0
        · omega
        · exact h.2 h0
      · simp

theorem skipToEolGo_length_le (inp : List Char) (col : Nat) :
    (skipToEolGo inp col).input.length ≤ inp.length := by
  induction inp generalizing col with
  | nil => simp [skipToEolGo]
  | cons c rest ih =>
    rw [skipToEolGo]
    split
    · simp
    · exact le_trans (ih _) (Nat.le_succ _)

theorem commentSkip_length_lt {l : Lexer} (hc : l.lookahead = some '#') :
    (commentSkip l).input.length < l.input.length := by
  have h2 : (skipToEol l).input.length < l.input.length := by
    cases hi : l.input with
    | nil => simp [Lexer.lookahead, hi] at hc
    | cons c rest =>
      have hc' : c = '#' := by simpa [Lexer.lookahead, hi] using hc
      have : skipToEol l = skipToEolGo rest (l.col + 1) := by
        rw [skipToEol, hi, skipToEolGo, hc', if_neg (by decide)]
      rw [this]
      exact Nat.lt_succ_of_le (skipToEolGo_length_le rest _)
  unfold commentSkip
  split
  · split
    · exact lt_of_le_of_lt
        (le_trans (Lexer.adv_input_length_le _) (Lexer.adv_input_length_le _)) h2
    · exact lt_of_le_of_lt (Lexer.adv_input_length_le _) h2
  · exact h2

/-! ## Case analysis of the line-start loop -/

/-- Everything the line-start loop can do to the scanner state, by outcome:
on "no match" the cursor is at end of input at depth ≤ 1 (or DEDENT was not
requested); on fall-through the cursor rests on a content character; a token
is either an INDENT (requested, push of one level capped at the maximum
depth, `pending_dedents` untouched) or a DEDENT (requested, stack contents
untouched, and either the end-of-input single pop or a multi-pop that leaves
`pending_dedents + depth' + 1 = depth`). -/
def TokOutcome (v : TokenType → Bool) (s : Scanner) (t : TokenType) (s' : Scanner) : Prop :=
  (t = .INDENT ∧ v .INDENT = true ∧ s'.pending_dedents = s.pending_dedents ∧
    ((s.indent_depth < MAX_INDENT_DEPTH ∧ s'.indent_depth = s.indent_depth + 1 ∧
      ∃ ind, ind < 65536 ∧ s'.indent_stack = s.indent_stack.set s.indent_depth ind) ∨
     (MAX_INDENT_DEPTH ≤ s.indent_depth ∧ s' = s))) ∨
  (t = .DEDENT ∧ v .DEDENT = true ∧ s'.indent_stack = s.indent_stack ∧
    ((1 < s.indent_depth ∧ s'.indent_depth = s.indent_depth - 1 ∧
      s'.pending_dedents = s.pending_dedents) ∨
     (1 ≤ s'.indent_depth ∧ s'.indent_depth < s.indent_depth ∧
      s'.pending_dedents + s'.indent_depth + 1 = s.indent_depth)))

def LineOutcome (v : TokenType → Bool) (s : Scanner) (out : LoopOut) : Prop :=
  (∀ l', out = .nomatch l' → l'.input = [] ∧ (s.indent_depth ≤ 1 ∨ v .DEDENT = false)) ∧
  (∀ l', out = .fallthru l' →
    ∃ c rest, l'.input = c :: rest ∧ c ≠ ' ' ∧ c ≠ '\t' ∧ c ≠ '\n' ∧ c ≠ '\r') ∧
  (∀ t s' l', out = .tok t s' l' → TokOutcome v s t s')


theorem countIndent_head (l : Lexer) (n : Nat) :
    (countIndent l n).2.input = [] ∨
    ∃ c rest, (countIndent l n).2.input = c :: rest ∧ c ≠ ' ' ∧ c ≠ '\t' :=
  countIndentGo_head l.input l.col n

theorem lineLoopGo_spec (v : TokenType → Bool) (s : Scanner) :
    ∀ (fuel : Nat) (l : Lexer), l.input.length < fuel →
      LineOutcome v s (lineLoopGo v s fuel l) := by
  intro fuel
  induction fuel with
  | zero => intro l hl; omega
  | succ n ih =>
    intro l hl
    have hlen : (countIndent l 0).2.input.length ≤ l.input.length :=
      countIndent_length_le l 0
    rw [lineLoopGo]
    split
    · -- blank line ending in '\n'
      rename_i hnl
      refine ih _ ?_
      have := Lexer.adv_input_length_lt hnl
      omega
    · rename_i hnl
      split
      · -- blank line ending in '\r' (optionally '\r\n')
        rename_i hcr
        refine ih _ ?_
        have h1 := Lexer.adv_input_length_lt hcr
        have h2 := Lexer.adv_input_length_le (countIndent l 0).2.adv
        split <;> omega
      · rename_i hcr
        split
        · -- comment line
          rename_i hhash
          refine ih _ ?_
          have := commentSkip_length_lt hhash
          omega
        · rename_i hhash
          split
          · -- end of input
            rename_i heof
            split
            · -- pop one level at end of input
              rename_i hdep
              refine ⟨?_, ?_, ?_⟩
              · rintro l' ⟨⟩
              · rintro l' ⟨⟩
              · rintro t s' l' h
                cases h
                exact Or.inr ⟨rfl, hdep.2, rfl, Or.inl ⟨hdep.1, rfl, rfl⟩⟩
            · -- decline at end of input
              rename_i hdep
              refine ⟨?_, ?_, ?_⟩
              · rintro l' h
                cases h
                refine ⟨heof, ?_⟩
                by_cases hd : 1 < s.indent_depth
                · refine Or.inr ?_
                  by_cases hv : v TokenType.DEDENT = true
                  · exact absurd ⟨hd, hv⟩ hdep
                  · simpa using hv
                · exact Or.inl (by omega)
              · rintro l' ⟨⟩
              · rintro t s' l' ⟨⟩
          · -- content line
            rename_i heof
            split
            · -- INDENT
              rename_i hgt
              refine ⟨?_, ?_, ?_⟩
              · rintro l' ⟨⟩
              · rintro l' ⟨⟩
              · rintro t s' l' h
                cases h
                refine Or.inl ⟨rfl, hgt.2, ?_, ?_⟩
                · split <;> rfl
                · split
                  · rename_i hcap
                    exact Or.inl ⟨hcap, rfl, (countIndent l 0).1, countIndent_lt l, rfl⟩
                  · rename_i hcap
                    exact Or.inr ⟨by omega, rfl⟩
            · rename_i hgt
              split
              · rename_i hlt
                split
                · -- DEDENT multi-pop
                  rename_i hpop
                  refine ⟨?_, ?_, ?_⟩
                  · rintro l' ⟨⟩
                  · rintro l' ⟨⟩
                  · rintro t s' l' h
                    cases h
                    have hs := popLoop_spec s.indent_stack s.indent_depth (countIndent l 0).1
                    have hsum := hs.1
                    have h1 : 1 ≤ (popLoop s.indent_stack s.indent_depth (countIndent l 0).1).1 :=
                      hs.2 hpop
                    have h2 : (popLoop s.indent_stack s.indent_depth (countIndent l 0).1).1 <
                        s.indent_depth := by omega
                    have h3 : (popLoop s.indent_stack s.indent_depth (countIndent l 0).1).2 - 1 +
                        (popLoop s.indent_stack s.indent_depth (countIndent l 0).1).1 + 1 =
                        s.indent_depth := by omega
                    exact Or.inr ⟨rfl, hlt.2, rfl, Or.inr ⟨h1, h2, h3⟩⟩
                · -- popped nothing: fall through
                  rename_i hpop
                  refine ⟨?_, ?_, ?_⟩
                  · rintro l' ⟨⟩
                  · rintro l' h
                    cases h
                    rcases countIndent_head l 0 with h0 | ⟨c, rest, hcr', hc1, hc2⟩
                    · exact absurd h0 heof
                    · refine ⟨c, rest, hcr', hc1, hc2, ?_, ?_⟩
                      · intro hcc
                        subst hcc
                        simp [Lexer.lookahead, hcr'] at hnl
                      · intro hcc
                        subst hcc
                        simp [Lexer.lookahead, hcr'] at hcr
                  · rintro t s' l' ⟨⟩
              · -- neither direction applies: fall through
                rename_i hlt
                refine ⟨?_, ?_, ?_⟩
                · rintro l' ⟨⟩
                · rintro l' h
                  cases h
                  rcases countIndent_head l 0 with h0 | ⟨c, rest, hcr', hc1, hc2⟩
                  · exact absurd h0 heof
                  · refine ⟨c, rest, hcr', hc1, hc2, ?_, ?_⟩
                    · intro hcc
                      subst hcc
                      simp [Lexer.lookahead, hcr'] at hnl
                    · intro hcc
                      subst hcc
                      simp [Lexer.lookahead, hcr'] at hcr
                · rintro t s' l' ⟨⟩

/-- The line-start loop as invoked by `scan` always satisfies the case
analysis (its iteration bound is sufficient by construction). -/
theorem lineLoop_spec (v : TokenType → Bool) (s : Scanner) (l : Lexer) :
    LineOutcome v s (lineLoop v s l) :=
  lineLoopGo_spec v s (l.input.length + 1) l (Nat.lt_succ_self _)

/-! ## Properties of a single scan call -/

theorem newlineCheck_none {l : Lexer} (h : newlineCheck l = none) : l.input ≠ [] := by
  intro he
  simp [newlineCheck, Lexer.lookahead, he] at h

/-- C1 core: a declined call does not modify the scanner state. -/
theorem scan_none (s : Scanner) (v : TokenType → Bool) (l : Lexer) :
    (scan s v l).1 = none → (scan s v l).2.1 = s := by
  unfold scan
  split
  · intro h
    simp at h
  · split
    · intro h
      simp at h
    · intro _
      rfl
    · split
      · split
        · intro h
          simp at h
        · intro _
          rfl
      · intro _
        rfl

/-- Case analysis of an emitting scan call: either an owed dedent was paid
out, or a NEWLINE was emitted (scanner untouched), or the pending queue was
empty (or DEDENT not requested) and the line-start loop emitted the token. -/
theorem scan_shape (s : Scanner) (v : TokenType → Bool) (l : Lexer) (t : TokenType) :
    (scan s v l).1 = some t →
    (t = .DEDENT ∧ 0 < s.pending_dedents ∧ v .DEDENT = true ∧
      (scan s v l).2.1 = { s with pending_dedents := s.pending_dedents - 1 }) ∨
    (t = .NEWLINE ∧ (scan s v l).2.1 = s) ∨
    ((s.pending_dedents = 0 ∨ v .DEDENT = false) ∧ TokOutcome v s t (scan s v l).2.1) := by
  unfold scan
  split
  · rename_i hp
    intro h
    simp only [Option.some.injEq] at h
    exact Or.inl ⟨h.symm, hp.1, hp.2, rfl⟩
  · rename_i hp
    have hp' : s.pending_dedents = 0 ∨ v .DEDENT = false := by
      by_cases h0 : 0 < s.pending_dedents
      · by_cases h1 : v TokenType.DEDENT = true
        · exact absurd ⟨h0, h1⟩ hp
        · exact Or.inr (by simpa using h1)
      · exact Or.inl (by omega)
    split
    · rename_i t0 s0 l0 heq
      intro h
      simp only [Option.some.injEq] at h
      subst h
      refine Or.inr (Or.inr ⟨hp', ?_⟩)
      split at heq
      · exact (lineLoop_spec v s l).2.2 t0 s0 l0 heq
      · cases heq
    · intro h
      simp at h
    · split
      · split
        · intro h
          simp only [Option.some.injEq] at h
          exact Or.inr (Or.inl ⟨h.symm, rfl⟩)
        · intro h
          simp at h
      · intro h
        simp at h

/-! ## The reachable-state invariant -/

/-- Invariant of every scanner state reachable by scan calls: the stack array
keeps its fixed length, the depth stays within `[1, MAX_INDENT_DEPTH]`, the
pending-dedent counter stays at most `MAX_INDENT_DEPTH - 2`, and every stack
entry is a `uint16_t` value. -/
def ScanInv (s : Scanner) : Prop :=
  s.indent_stack.length = MAX_INDENT_DEPTH ∧
  1 ≤ s.indent_depth ∧
  s.indent_depth ≤ MAX_INDENT_DEPTH ∧
  s.pending_dedents + 2 ≤ MAX_INDENT_DEPTH ∧
  ∀ x ∈ s.indent_stack, x < 65536

theorem createScanner_inv : ScanInv createScanner := by
  refine ⟨by decide, by decide, by decide, by decide, ?_⟩
  intro x hx
  have : x = 0 := List.eq_of_mem_replicate hx
  omega

theorem scan_inv (s : Scanner) (v : TokenType → Bool) (l : Lexer) (hs : ScanInv s) :
    ScanInv (scan s v l).2.1 := by
  cases ht : (scan s v l).1 with
  | none => rw [scan_none s v l ht]; exact hs
  | some t =>
    obtain ⟨hlen, hd1, hd2, hpd, hmem⟩ := hs
    rcases scan_shape s v l t ht with ⟨_, hp, _, hr⟩ | ⟨_, hr⟩ | ⟨_, htok⟩
    · rw [hr]
      exact ⟨hlen, hd1, hd2, show s.pending_dedents - 1 + 2 ≤ MAX_INDENT_DEPTH by omega, hmem⟩
    · rw [hr]
      exact ⟨hlen, hd1, hd2, hpd, hmem⟩
    · rcases htok with ⟨_, _, hpend, ⟨hcap, hdep, ind, hind, hstk⟩ | ⟨_, heq⟩⟩ |
        ⟨_, _, hstk, ⟨hgt, hdep, hpend⟩ | ⟨hge, hlt, hsum⟩⟩
      · refine ⟨by rw [hstk]; simpa using hlen, by omega, by omega, by omega, ?_⟩
        intro x hx
        rcases List.mem_or_eq_of_mem_set (hstk ▸ hx) with h | h
        · exact hmem x h
        · omega
      · rw [heq]
        exact ⟨hlen, hd1, hd2, hpd, hmem⟩
      · exact ⟨by rw [hstk]; exact hlen, by omega, by omega, by omega, hstk ▸ hmem⟩
      · exact ⟨by rw [hstk]; exact hlen, by omega, by omega, by omega, hstk ▸ hmem⟩

theorem reachable_inv {s : Scanner} (h : Reachable s) : ScanInv s := by
  induction h with
  | init => exact createScanner_inv
  | step v l _ ih => exact scan_inv _ v l ih

/-- A declined call whose final cursor is at end of input (with all kinds
requested) can only happen at depth ≤ 1 with no pending dedents. -/
theorem scan_none_eof (s : Scanner) (l : Lexer)
    (h : (scan s validAll l).1 = none) (he : (scan s validAll l).2.2.input = []) :
    s.indent_depth ≤ 1 ∧ s.pending_dedents = 0 := by
  suffices hgen : ∀ r : Option TokenType × Scanner × Lexer, scan s validAll l = r →
      r.1 = none → r.2.2.input = [] → s.indent_depth ≤ 1 ∧ s.pending_dedents = 0 by
    exact hgen _ rfl h he
  intro r hr h1 h2
  unfold scan at hr
  split at hr
  · rename_i hp
    subst hr
    simp at h1
  · rename_i hp
    have hp0 : s.pending_dedents = 0 := by
      by_cases h0 : 0 < s.pending_dedents
      · exact absurd ⟨h0, rfl⟩ hp
      · omega
    split at hr
    · subst hr
      simp at h1
    · rename_i l' heq
      subst hr
      refine ⟨?_, hp0⟩
      split at heq
      · rcases (lineLoop_spec validAll s l).1 l' heq with ⟨_, hdep | hdep⟩
        · exact hdep
        · simp [validAll] at hdep
      · cases heq
    · rename_i l' heq
      split at hr
      · split at hr
        · subst hr
          simp at h1
        · rename_i hnc
          subst hr
          exact absurd h2 (newlineCheck_none hnc)
      · rename_i hv
        simp [validAll] at hv

/-! ## Driving the engine over a whole document -/

/-- Main invariant of a finished, overflow-free drive: every INDENT moved the
depth up by one and every DEDENT moved the depth-plus-pending measure down by
one, so the token counts balance against the change of that measure; moreover
a finished drive ends at depth ≤ 1 with no pending dedents. -/
theorem drive_spec :
    ∀ (fuel : Nat) (s : Scanner) (l : Lexer), ScanInv s →
      (drive fuel s l).finished = true → (drive fuel s l).overflow = false →
      ScanInv (drive fuel s l).scanner ∧
      (drive fuel s l).scanner.indent_depth ≤ 1 ∧
      (drive fuel s l).scanner.pending_dedents = 0 ∧
      (drive fuel s l).toks.count .INDENT + s.indent_depth + s.pending_dedents =
      (drive fuel s l).toks.count .DEDENT + (drive fuel s l).scanner.indent_depth +
        (drive fuel s l).scanner.pending_dedents := by
  intro fuel
  induction fuel with
  | zero =>
    intro s l hs hfin hov
    simp [drive] at hfin
  | succ n ih =>
    intro s l hs hfin hov
    rcases hscan : scan s validAll l with ⟨ot, s', l'⟩
    have ht1 : (scan s validAll l).1 = ot := by rw [hscan]
    have hs' : ScanInv s' := by
      have h := scan_inv s validAll l hs
      rw [hscan] at h
      exact h
    cases ot with
    | some t =>
      rw [drive, hscan] at hfin hov ⊢
      dsimp only at hfin hov ⊢
      rw [Bool.or_eq_false_iff] at hov
      have hflag : ¬(t = TokenType.INDENT ∧ MAX_INDENT_DEPTH ≤ s.indent_depth) := by
        simpa using hov.1
      obtain ⟨ihinv, ihd, ihp, iheq⟩ := ih s' l' hs' hfin hov.2
      have hsh := scan_shape s validAll l t ht1
      rw [hscan] at hsh
      dsimp only at hsh
      refine ⟨ihinv, ihd, ihp, ?_⟩
      cases t with
      | INDENT =>
        rcases hsh with ⟨hc, _⟩ | ⟨hc, _⟩ | ⟨hp', htok⟩
        · cases hc
        · cases hc
        · rcases htok with ⟨_, _, hpend, ⟨hcap, hdep, _⟩ | ⟨hcap, _⟩⟩ | ⟨hc, _⟩
          · simp [List.count_cons]
            omega
          · exact absurd ⟨rfl, hcap⟩ hflag
          · cases hc
      | DEDENT =>
        simp [List.count_cons]
        rcases hsh with ⟨_, hp, _, hr⟩ | ⟨hc, _⟩ | ⟨hp', htok⟩
        · have e1 : s'.indent_depth = s.indent_depth := by rw [hr]
          have e2 : s'.pending_dedents = s.pending_dedents - 1 := by rw [hr]
          omega
        · cases hc
        · have hp0 : s.pending_dedents = 0 := by
            rcases hp' with h | h
            · exact h
            · simp [validAll] at h
          rcases htok with ⟨hc, _⟩ | ⟨_, _, _, ⟨hgt, hdep, hpend⟩ | ⟨hge, hlt, hsum⟩⟩
          · cases hc
          · omega
          · omega
      | NEWLINE =>
        rcases hsh with ⟨hc, _⟩ | ⟨_, hr⟩ | ⟨_, htok⟩
        · cases hc
        · have e1 : s'.indent_depth = s.indent_depth := by rw [hr]
          have e2 : s'.pending_dedents = s.pending_dedents := by rw [hr]
          simp [List.count_cons]
          omega
        · rcases htok with ⟨hc, _⟩ | ⟨hc, _⟩ <;> cases hc
    | none =>
      have hsn : s' = s := by
        have h := scan_none s validAll l ht1
        rw [hscan] at h
        exact h
      rw [drive, hscan] at hfin hov ⊢
      dsimp only at hfin hov ⊢
      by_cases he : l'.input = []
      · have heof := scan_none_eof s l ht1 (by rw [hscan]; exact he)
        simp only [if_pos he] at hfin hov ⊢
        subst hsn
        exact ⟨hs, heof.1, heof.2, by simp⟩
      · simp only [if_neg he] at hfin hov ⊢
        subst hsn
        exact ih s' l'.adv hs hfin hov

/-! ## The state codec -/

theorem getD_set_spec (l : List Nat) (i j a : Nat) :
    (l.set i a).getD j 0 = if i = j ∧ j < l.length then a else l.getD j 0 := by
  rw [List.getD_eq_getElem?_getD, List.getD_eq_getElem?_getD, List.getElem?_set]
  by_cases hij : i = j
  · subst hij
    by_cases hl : i < l.length
    · simp [hl]
    · have : l[i]? = none := by
        rw [List.getElem?_eq_none_iff]
        omega
      simp [hl, this]
  · simp [hij]

/-- Shape of the serialization loop's output when the depth is within the
capacity (so the 1024-byte cap is never hit): `2 * fuel` bytes, and the bytes
at offsets `2*(j-i)` and `2*(j-i)+1` encode stack entry `j` little-endian. -/
theorem serializeGo_spec (stack : List Nat) (depth : Nat) (hd : depth ≤ MAX_INDENT_DEPTH) :
    ∀ (fuel i : Nat), fuel + i = depth →
      (serializeGo stack depth fuel i (2 + 2 * i)).length = 2 * fuel ∧
      ∀ j, i ≤ j → j < depth →
        (serializeGo stack depth fuel i (2 + 2 * i)).getD (2 * (j - i)) 0 =
          stack.getD j 0 % 256 ∧
        (serializeGo stack depth fuel i (2 + 2 * i)).getD (2 * (j - i) + 1) 0 =
          stack.getD j 0 / 256 % 256 := by
  intro fuel
  induction fuel with
  | zero =>
    intro i hi
    rw [serializeGo]
    refine ⟨rfl, ?_⟩
    intro j h1 h2
    omega
  | succ n ih =>
    intro i hi
    rw [serializeGo, if_pos ⟨by omega, by
      simp only [TREE_SITTER_SERIALIZATION_BUFFER_SIZE]
      simp only [MAX_INDENT_DEPTH] at hd
      omega⟩]
    have harg : 2 + 2 * i + 2 = 2 + 2 * (i + 1) := by omega
    rw [harg]
    obtain ⟨ihlen, ihget⟩ := ih (i + 1) (by omega)
    refine ⟨by simp [ihlen]; omega, ?_⟩
    intro j h1 h2
    by_cases hji : j = i
    · subst hji
      simp [List.getD_cons_zero, List.getD_cons_succ]
    · constructor
      · have e1 : 2 * (j - i) = 2 * (j - (i + 1)) + 1 + 1 := by omega
        rw [e1, List.getD_cons_succ, List.getD_cons_succ]
        exact (ihget j (by omega) h2).1
      · have e2 : 2 * (j - i) + 1 = 2 * (j - (i + 1)) + 1 + 1 + 1 := by omega
        rw [e2, List.getD_cons_succ, List.getD_cons_succ]
        exact (ihget j (by omega) h2).2

/-- Entry-wise behaviour of the deserialization loop: entry `j` is decoded
from bytes `2+2j` and `2+2j+1` exactly when the loop reaches it (`i ≤ j`),
it is within the declared depth, both its bytes are inside the buffer, and it
is inside the stack array; all other entries are left as they were. -/
theorem deserializeGo_spec (buf : List Nat) (depth len : Nat) :
    ∀ (fuel i : Nat) (stack : List Nat), depth ≤ fuel + i →
      ∀ j, (deserializeGo buf depth len fuel i stack).getD j 0 =
        if i ≤ j ∧ j < depth ∧ 2 + 2 * j + 1 < len ∧ j < stack.length then
          buf.getD (2 + 2 * j) 0 % 256 + buf.getD (2 + 2 * j + 1) 0 % 256 * 256
        else stack.getD j 0 := by
  intro fuel
  induction fuel with
  | zero =>
    intro i stack hfi j
    rw [deserializeGo, if_neg (by omega)]
  | succ n ih =>
    intro i stack hfi j
    rw [deserializeGo]
    split
    · rename_i hguard
      rw [ih (i + 1) _ (by omega) j]
      by_cases hji : j = i
      · subst hji
        rw [if_neg (by omega)]
        rw [getD_set_spec]
        by_cases hjl : j < stack.length
        · rw [if_pos ⟨rfl, hjl⟩, if_pos ⟨le_refl j, hguard.1, hguard.2, hjl⟩]
        · rw [if_neg (by tauto), if_neg (by tauto)]
      · by_cases hcond : i + 1 ≤ j ∧ j < depth ∧ 2 + 2 * j + 1 < len ∧
            j < (stack.set i (buf.getD (2 + 2 * i) 0 % 256 +
              buf.getD (2 + 2 * i + 1) 0 % 256 * 256)).length
        · rw [if_pos hcond, if_pos (by simp only [List.length_set] at hcond; exact
            ⟨by omega, hcond.2.1, hcond.2.2.1, hcond.2.2.2⟩)]
        · rw [if_neg hcond, getD_set_spec, if_neg (by tauto), if_neg (by
            simp only [List.length_set] at hcond
            intro hc
            exact hcond ⟨by omega, hc.2.1, hc.2.2.1, hc.2.2.2⟩)]
    · rename_i hguard
      rw [if_neg (by
        intro hc
        rcases Decidable.not_and_iff_or_not.mp hguard with h | h
        · exact absurd hc.2.1 (by omega)
        · exact absurd hc.2.2.1 (by omega))]

theorem deserializeGo_length (buf : List Nat) (depth len : Nat) :
    ∀ (fuel i : Nat) (stack : List Nat),
      (deserializeGo buf depth len fuel i stack).length = stack.length := by
  intro fuel
  induction fuel with
  | zero => intro i stack; rw [deserializeGo]
  | succ n ih =>
    intro i stack
    rw [deserializeGo]
    split
    · rw [ih, List.length_set]
    · rfl

theorem take_eq_of_getD (l1 l2 : List Nat) (d : Nat) (h1 : d ≤ l1.length)
    (h2 : d ≤ l2.length) (h : ∀ j, j < d → l1.getD j 0 = l2.getD j 0) :
    l1.take d = l2.take d := by
  apply List.ext_getElem
  · rw [List.length_take, List.length_take, Nat.min_eq_left h1, Nat.min_eq_left h2]
  · intro n hn1 hn2
    rw [List.getElem_take, List.getElem_take]
    have hnd : n < d := by
      rw [List.length_take] at hn1
      exact lt_of_lt_of_le hn1 (Nat.min_le_left _ _)
    have hh := h n hnd
    rw [List.getD_eq_getElem l1 0 (show n < l1.length by omega),
      List.getD_eq_getElem l2 0 (show n < l2.length by omega)] at hh
    exact hh

/-- General round-trip property of the codec: for any scanner state whose
stack array has its fixed length, whose depth is within the capacity, whose
pending count fits in one byte, and whose stack entries are `uint16_t`
values, decoding the encoding into any scanner restores the pending count,
the depth, and the live stack entries. -/
theorem roundtrip_general (s s₀ : Scanner)
    (hlen : s.indent_stack.length = MAX_INDENT_DEPTH)
    (hlen0 : s₀.indent_stack.length = MAX_INDENT_DEPTH)
    (hd : s.indent_depth ≤ MAX_INDENT_DEPTH)
    (hp : s.pending_dedents ≤ 255)
    (hmem : ∀ x ∈ s.indent_stack, x < 65536) :
    (deserialize s₀ (serialize s)).pending_dedents = s.pending_dedents ∧
    (deserialize s₀ (serialize s)).indent_depth = s.indent_depth ∧
    (deserialize s₀ (serialize s)).indent_stack.take s.indent_depth =
      s.indent_stack.take s.indent_depth := by
  have hd100 : s.indent_depth ≤ 100 := hd
  have hp256 : s.pending_dedents % 256 = s.pending_dedents := Nat.mod_eq_of_lt (by omega)
  have hd256 : s.indent_depth % 256 = s.indent_depth := Nat.mod_eq_of_lt (by omega)
  have hser := serializeGo_spec s.indent_stack s.indent_depth hd s.indent_depth 0 (by omega)
  simp only [Nat.mul_zero, Nat.add_zero, Nat.sub_zero] at hser
  obtain ⟨hlt, hgt⟩ := hser
  have hbuf : serialize s = s.pending_dedents % 256 :: s.indent_depth % 256 ::
      serializeGo s.indent_stack s.indent_depth s.indent_depth 0 2 := rfl
  have hblen : (serialize s).length = 2 + 2 * s.indent_depth := by
    rw [hbuf]
    simp [hlt]
    omega
  have hx16 : ∀ j, j < s.indent_depth → s.indent_stack.getD j 0 < 65536 := by
    intro j hj
    rw [List.getD_eq_getElem _ _ (by omega)]
    exact hmem _ (List.getElem_mem _)
  simp only [deserialize]
  rw [if_neg (by omega), if_neg (by omega)]
  have hget1 : (serialize s).getD 1 0 = s.indent_depth % 256 := by
    rw [hbuf, List.getD_cons_succ, List.getD_cons_zero]
  have hget0 : (serialize s).getD 0 0 = s.pending_dedents % 256 := by
    rw [hbuf, List.getD_cons_zero]
  rw [hget0, hget1, hp256, hd256, hp256, hd256]
  rw [if_neg (by simp only [MAX_INDENT_DEPTH]; omega)]
  refine ⟨rfl, rfl, ?_⟩
  show (deserializeGo (serialize s) s.indent_depth (serialize s).length s.indent_depth 0
      (s₀.indent_stack.set 0 0)).take s.indent_depth = s.indent_stack.take s.indent_depth
  apply take_eq_of_getD
  · rw [deserializeGo_length, List.length_set]
    omega
  · omega
  · intro j hj
    rw [deserializeGo_spec _ _ _ _ _ _ (by omega) j, if_pos ⟨by omega, hj, by omega,
      by rw [List.length_set]; omega⟩]
    have e1 : 2 + 2 * j = 2 * j + 1 + 1 := by omega
    have e2 : 2 + 2 * j + 1 = 2 * j + 1 + 1 + 1 := by omega
    rw [e2, e1, hbuf, List.getD_cons_succ, List.getD_cons_succ, List.getD_cons_succ,
      List.getD_cons_succ]
    rw [(hgt j (by omega) hj).1, (hgt j (by omega) hj).2]
    have := hx16 j hj
    omega

/-! ## Scan calls at end of input with only DEDENT requested -/

theorem scan_eof_dedent (s : Scanner) (hp : s.pending_dedents = 0) (hd : 1 < s.indent_depth) :
    scan s validDedentOnly ⟨[], 0⟩ =
      (some TokenType.DEDENT, { s with indent_depth := s.indent_depth - 1 }, ⟨[], 0⟩) := by
  rw [scan, if_neg (by simp [hp])]
  have hline : (if (⟨[], 0⟩ : Lexer).col = 0 ∧ (validDedentOnly .INDENT = true ∨
      validDedentOnly .DEDENT = true) then lineLoop validDedentOnly s ⟨[], 0⟩
      else .fallthru ⟨[], 0⟩) =
      .tok .DEDENT { s with indent_depth := s.indent_depth - 1 } ⟨[], 0⟩ := by
    rw [if_pos ⟨rfl, Or.inr rfl⟩, lineLoop]
    show lineLoopGo validDedentOnly s (0 + 1) ⟨[], 0⟩ = _
    rw [lineLoopGo]
    rw [if_neg (by decide), if_neg (by decide), if_neg (by decide), if_pos (by rfl),
      if_pos ⟨hd, rfl⟩]
    rfl
  rw [hline]

theorem scan_eof_done (s : Scanner) (hp : s.pending_dedents = 0) (hd : s.indent_depth = 1) :
    scan s validDedentOnly ⟨[], 0⟩ = (none, s, ⟨[], 0⟩) := by
  rw [scan, if_neg (by simp [hp])]
  have hline : (if (⟨[], 0⟩ : Lexer).col = 0 ∧ (validDedentOnly .INDENT = true ∨
      validDedentOnly .DEDENT = true) then lineLoop validDedentOnly s ⟨[], 0⟩
      else .fallthru ⟨[], 0⟩) = .nomatch ⟨[], 0⟩ := by
    rw [if_pos ⟨rfl, Or.inr rfl⟩, lineLoop]
    show lineLoopGo validDedentOnly s (0 + 1) ⟨[], 0⟩ = _
    rw [lineLoopGo]
    rw [if_neg (by decide), if_neg (by decide), if_neg (by decide), if_pos (by rfl),
      if_neg (by omega)]
    rfl
  rw [hline]

/-- The whitespace counter over `k` spaces followed by a non-whitespace
character: measured width `(n + k) % 65536`, cursor on the content. -/
theorem countIndentGo_replicate (k : Nat) (c : Char) (rest : List Char)
    (hc1 : c ≠ ' ') (hc2 : c ≠ '\t') :
    ∀ (col n : Nat), n < 65536 →
      countIndentGo (List.replicate k ' ' ++ c :: rest) col n =
        ((n + k) % 65536, ⟨c :: rest, col + k⟩) := by
  induction k with
  | zero =>
    intro col n hn
    simp only [List.replicate, List.nil_append]
    rw [countIndentGo, if_neg hc1, if_neg hc2]
    rw [Nat.mod_eq_of_lt (by omega)]
    simp
  | succ m ih =>
    intro col n hn
    rw [List.replicate_succ, List.cons_append, countIndentGo, if_pos rfl]
    rw [ih (col + 1) ((n + 1) % 65536) (Nat.mod_lt _ (by omega))]
    simp only [Prod.mk.injEq, Lexer.mk.injEq]
    exact ⟨by omega, trivial, by omega⟩

/-! ## Claim theorems -/

/-- C1: for every Scan State and every input, whenever `scan` returns "no
match" (`none`), the Scan State (stack contents, depth, pending dedents)
after the call is identical to the Scan State before the call. -/
theorem C1_no_match_leaves_state_unchanged (s : Scanner) (v : TokenType → Bool) (l : Lexer)
    (h : (scan s v l).1 = none) : (scan s v l).2.1 = s :=
  scan_none s v l h

theorem C1_witness :
    (scan createScanner (fun _ => false) ⟨['a'], 0⟩).2.1 = createScanner :=
  C1_no_match_leaves_state_unchanged createScanner (fun _ => false) ⟨['a'], 0⟩ (by decide)

/-- C2: for every reachable Scan State `s` with depth at most the capacity
(100) and `pending_dedents` at most 255, deserializing the byte sequence
produced by serializing `s` (into any scanner whose stack array has the fixed
length) restores a Scan State equal to `s`: same `pending_dedents`, same
depth, same stack entries up to the depth. -/
theorem C2_serialize_deserialize_roundtrip (s : Scanner) (hre : Reachable s)
    (hd : s.indent_depth ≤ MAX_INDENT_DEPTH) (hp : s.pending_dedents ≤ 255)
    (s₀ : Scanner) (hlen0 : s₀.indent_stack.length = MAX_INDENT_DEPTH) :
    (deserialize s₀ (serialize s)).pending_dedents = s.pending_dedents ∧
    (deserialize s₀ (serialize s)).indent_depth = s.indent_depth ∧
    (deserialize s₀ (serialize s)).indent_stack.take s.indent_depth =
      s.indent_stack.take s.indent_depth := by
  obtain ⟨hlen, _, _, _, hmem⟩ := reachable_inv hre
  exact roundtrip_general s s₀ hlen hlen0 hd hp hmem

theorem C2_witness :
    (deserialize createScanner (serialize (scan createScanner validAll
        ⟨[' ', 'x'], 0⟩).2.1)).pending_dedents =
      (scan createScanner validAll ⟨[' ', 'x'], 0⟩).2.1.pending_dedents ∧
    (deserialize createScanner (serialize (scan createScanner validAll
        ⟨[' ', 'x'], 0⟩).2.1)).indent_depth =
      (scan createScanner validAll ⟨[' ', 'x'], 0⟩).2.1.indent_depth ∧
    (deserialize createScanner (serialize (scan createScanner validAll
        ⟨[' ', 'x'], 0⟩).2.1)).indent_stack.take
        (scan createScanner validAll ⟨[' ', 'x'], 0⟩).2.1.indent_depth =
      (scan createScanner validAll ⟨[' ', 'x'], 0⟩).2.1.indent_stack.take
        (scan createScanner validAll ⟨[' ', 'x'], 0⟩).2.1.indent_depth :=
  C2_serialize_deserialize_roundtrip _
    (Reachable.step validAll ⟨[' ', 'x'], 0⟩ Reachable.init)
    (by decide) (by decide) createScanner (by decide)

/-- C3 counterexample: a state reachable in three scan calls from the fresh
state (push width 1, push width 2, then dedent to width 0) has
`pending_dedents = 1` and depth 1, so `pending_dedents < depth` fails. -/
theorem C3_counterexample :
    Reachable ((scan (scan (scan createScanner validAll ⟨[' ', 'x'], 0⟩).2.1 validAll
        ⟨[' ', ' ', 'x'], 0⟩).2.1 validAll ⟨['x'], 0⟩).2.1) ∧
    ¬((scan (scan (scan createScanner validAll ⟨[' ', 'x'], 0⟩).2.1 validAll
        ⟨[' ', ' ', 'x'], 0⟩).2.1 validAll ⟨['x'], 0⟩).2.1.pending_dedents <
      (scan (scan (scan createScanner validAll ⟨[' ', 'x'], 0⟩).2.1 validAll
        ⟨[' ', ' ', 'x'], 0⟩).2.1 validAll ⟨['x'], 0⟩).2.1.indent_depth) :=
  ⟨Reachable.step validAll ⟨['x'], 0⟩ (Reachable.step validAll ⟨[' ', ' ', 'x'], 0⟩
      (Reachable.step validAll ⟨[' ', 'x'], 0⟩ Reachable.init)),
    by decide⟩

/-- C3 (amended): for every Scan State reachable from the fresh state by scan
calls, `pending_dedents` is strictly less than the stack capacity
`MAX_INDENT_DEPTH` (in fact at most 98); the original bound
`pending_dedents < indent_depth` fails after a multi-level dedent. -/
theorem C3_amended_pending_lt_capacity (s : Scanner) (h : Reachable s) :
    s.pending_dedents < MAX_INDENT_DEPTH := by
  obtain ⟨_, _, _, hpd, _⟩ := reachable_inv h
  omega

theorem C3_amended_witness : createScanner.pending_dedents < MAX_INDENT_DEPTH :=
  C3_amended_pending_lt_capacity createScanner Reachable.init

/-- C5: from any Scan State with depth `d > 1` and no pending dedents, with
the cursor at end of input at column 0, `d` successive scan calls requesting
only DEDENT yield exactly `d - 1` DEDENT results followed by "no match". -/
theorem C5_eof_dedent_run (d : Nat) (s : Scanner) (l : Lexer)
    (hd : s.indent_depth = d) (h1 : 1 < d) (hp : s.pending_dedents = 0)
    (hin : l.input = []) (hcol : l.col = 0) :
    (scanN d s validDedentOnly l).1 =
      List.replicate (d - 1) (some TokenType.DEDENT) ++ [none] := by
  obtain ⟨li, lc⟩ := l
  simp only at hin hcol
  subst hin
  subst hcol
  suffices hgen : ∀ (k : Nat) (s : Scanner), s.indent_depth = k + 1 →
      s.pending_dedents = 0 →
      (scanN (k + 1) s validDedentOnly ⟨[], 0⟩).1 =
        List.replicate k (some TokenType.DEDENT) ++ [none] by
    have hd' : d = (d - 1) + 1 := by omega
    rw [hd']
    exact hgen (d - 1) s (by omega) hp
  intro k
  induction k with
  | zero =>
    intro s hdep hpend
    rw [scanN]
    rw [scan_eof_done s hpend hdep]
    rfl
  | succ m ih =>
    intro s hdep hpend
    rw [scanN]
    rw [scan_eof_dedent s hpend (by omega)]
    have := ih { s with indent_depth := s.indent_depth - 1 } (by simp [hdep]) hpend
    simp only [List.replicate_succ, List.cons_append]
    rw [show scanN (m + 1) { s with indent_depth := s.indent_depth - 1 } validDedentOnly
      ⟨[], 0⟩ = scanN (m + 1) { s with indent_depth := s.indent_depth - 1 } validDedentOnly
      ⟨[], 0⟩ from rfl]
    simpa using this

theorem C5_witness :
    (scanN 3 ⟨List.range 100, 3, 0⟩ validDedentOnly ⟨[], 0⟩).1 =
      List.replicate 2 (some TokenType.DEDENT) ++ [none] :=
  C5_eof_dedent_run 3 ⟨List.range 100, 3, 0⟩ ⟨[], 0⟩ rfl (by omega) rfl rfl rfl

/-- C9: with pending dedents owed and DEDENT among the requested kinds, a
scan call decrements `pending_dedents` by exactly one and returns DEDENT,
leaving the stack, the depth, and the cursor (no character inspected or
consumed) unchanged. -/
theorem C9_pending_dedent_paid_first (s : Scanner) (v : TokenType → Bool) (l : Lexer)
    (h0 : 0 < s.pending_dedents) (hv : v TokenType.DEDENT = true) :
    scan s v l = (some TokenType.DEDENT,
      { s with pending_dedents := s.pending_dedents - 1 }, l) := by
  rw [scan, if_pos ⟨h0, hv⟩]

theorem C9_witness :
    scan ⟨List.range 100, 3, 2⟩ validAll ⟨['x'], 5⟩ =
      (some TokenType.DEDENT, ⟨List.range 100, 3, 1⟩, ⟨['x'], 5⟩) :=
  C9_pending_dedent_paid_first ⟨List.range 100, 3, 2⟩ validAll ⟨['x'], 5⟩ (by decide) rfl

/-- C10: at the maximum depth (100) the push is skipped but the token is
still emitted (scanner.c lines 176–182).  First part: any scan call that
emits INDENT from a state at full depth leaves the whole scanner state (stack
and depth included) unchanged.  Second part: a scan call at line start on a
content line whose measured width exceeds the stack top, with INDENT
requested, does emit INDENT from such a state. -/
theorem C10_capped_indent_emitted_without_push :
    (∀ (s : Scanner) (v : TokenType → Bool) (l : Lexer),
      s.indent_depth = MAX_INDENT_DEPTH →
      (scan s v l).1 = some TokenType.INDENT →
      (scan s v l).2.1 = s) ∧
    (∀ (s : Scanner) (l : Lexer) (k : Nat) (c : Char) (rest : List Char)
      (v : TokenType → Bool),
      s.indent_depth = MAX_INDENT_DEPTH →
      s.pending_dedents = 0 →
      l.col = 0 →
      k < 65536 →
      l.input = List.replicate k ' ' ++ c :: rest →
      c ≠ ' ' → c ≠ '\t' → c ≠ '\n' → c ≠ '\r' → c ≠ '#' →
      s.indent_stack.getD (MAX_INDENT_DEPTH - 1) 0 < k →
      v TokenType.INDENT = true →
      (scan s v l).1 = some TokenType.INDENT ∧ (scan s v l).2.1 = s) := by
  constructor
  · intro s v l hdep ht
    rcases scan_shape s v l _ ht with ⟨hc, _⟩ | ⟨hc, _⟩ | ⟨_, htok⟩
    · cases hc
    · cases hc
    · rcases htok with ⟨_, _, _, ⟨hcap, _⟩ | ⟨_, heq⟩⟩ | ⟨hc, _⟩
      · omega
      · exact heq
      · cases hc
  · intro s l k c rest v hdep hp hcol hk hin hc1 hc2 hc3 hc4 hc5 htop hv
    have hci : countIndent l 0 = (k, ⟨c :: rest, k⟩) := by
      rw [countIndent, hin, hcol, countIndentGo_replicate k c rest hc1 hc2 0 0 (by omega)]
      simp [Nat.mod_eq_of_lt hk]
    have hscan : scan s v l = (some TokenType.INDENT, s, ⟨c :: rest, k⟩) := by
      rw [scan, if_neg (by simp [hp])]
      have hline : (if l.col = 0 ∧ (v .INDENT = true ∨ v .DEDENT = true) then
          lineLoop v s l else .fallthru l) = .tok .INDENT s ⟨c :: rest, k⟩ := by
        rw [if_pos ⟨hcol, Or.inl hv⟩, lineLoop, lineLoopGo, hci]
        rw [if_neg (by simp [Lexer.lookahead]; exact hc3),
          if_neg (by simp [Lexer.lookahead]; exact hc4),
          if_neg (by simp [Lexer.lookahead]; exact hc5),
          if_neg (by simp)]
        rw [if_pos ⟨by rw [hdep]; exact htop, hv⟩]
        rw [if_neg (by omega)]
      rw [hline]
    rw [hscan]
    exact ⟨rfl, rfl⟩

theorem C10_witness :
    (scan ⟨List.range 100, 100, 0⟩ validAll
      ⟨List.replicate 100 ' ' ++ ['x'], 0⟩).1 = some TokenType.INDENT ∧
    (scan ⟨List.range 100, 100, 0⟩ validAll
      ⟨List.replicate 100 ' ' ++ ['x'], 0⟩).2.1 = ⟨List.range 100, 100, 0⟩ :=
  C10_capped_indent_emitted_without_push.2 ⟨List.range 100, 100, 0⟩
    ⟨List.replicate 100 ' ' ++ ['x'], 0⟩ 100 'x' [] validAll rfl rfl rfl (by decide) rfl
    (by decide) (by decide) (by decide) (by decide) (by decide) (by decide) rfl

theorem Lexer.input_adv {l : Lexer} {c : Char} (h : l.lookahead = some c) :
    l.input = c :: l.adv.input := by
  cases hi : l.input with
  | nil => simp [Lexer.lookahead, hi] at h
  | cons a rest =>
    have ha : a = c := by simpa [Lexer.lookahead, hi] using h
    subst ha
    simp [Lexer.adv, hi]

/-- C7 (amended): after the trailing-whitespace skip, newline recognition
emits NEWLINE exactly when the next character is `'\n'` or `'\r'` or the
cursor is at end of input, and the characters consumed as the terminator are
exactly one of: `"\n"`, `"\n\r"`, `"\r"`, `"\r\n"`, or nothing (at end of
input).  The claim's original list omitted the `"\n\r"` form, which the code
(scanner.c lines 211–218) consumes as a single terminator. -/
theorem C7_amended_newline_recognition (l : Lexer) :
    ((newlineCheck (skipTrailingWs l)).isSome ↔
      ((skipTrailingWs l).lookahead = some '\n' ∨
       (skipTrailingWs l).lookahead = some '\r' ∨
       (skipTrailingWs l).input = [])) ∧
    (∀ (term : List Char) (l₂ : Lexer),
      newlineCheck (skipTrailingWs l) = some (term, l₂) →
        (term = ['\n'] ∨ term = ['\n', '\r'] ∨ term = ['\r'] ∨ term = ['\r', '\n'] ∨
          term = []) ∧
        (skipTrailingWs l).input = term ++ l₂.input) := by
  suffices hgen : ∀ m : Lexer,
      ((newlineCheck m).isSome ↔
        (m.lookahead = some '\n' ∨ m.lookahead = some '\r' ∨ m.input = [])) ∧
      (∀ (term : List Char) (l₂ : Lexer),
        newlineCheck m = some (term, l₂) →
          (term = ['\n'] ∨ term = ['\n', '\r'] ∨ term = ['\r'] ∨ term = ['\r', '\n'] ∨
            term = []) ∧
          m.input = term ++ l₂.input) by
    exact hgen (skipTrailingWs l)
  intro m
  constructor
  · rw [newlineCheck]
    split
    · rename_i h1
      split <;> simp [h1]
    · rename_i h1
      split
      · rename_i h2
        split <;> simp [h2]
      · rename_i h2
        split
        · rename_i h3
          simp [h1, h2, h3]
        · rename_i h3
          simp [h1, h2, h3]
  · intro term l₂ h
    rw [newlineCheck] at h
    split at h
    · rename_i h1
      split at h
      · rename_i h2
        obtain ⟨rfl, rfl⟩ : term = ['\n', '\r'] ∧ m.adv.adv = l₂ := by
          have hh := h
          simp at hh
          exact ⟨hh.1.symm, hh.2⟩
        refine ⟨by simp, ?_⟩
        rw [Lexer.input_adv h1, Lexer.input_adv h2]
        simp
      · obtain ⟨rfl, rfl⟩ : term = ['\n'] ∧ m.adv = l₂ := by
          have hh := h
          simp at hh
          exact ⟨hh.1.symm, hh.2⟩
        refine ⟨by simp, ?_⟩
        rw [Lexer.input_adv h1]
        simp
    · split at h
      · rename_i h1 h2
        split at h
        · rename_i h3
          obtain ⟨rfl, rfl⟩ : term = ['\r', '\n'] ∧ m.adv.adv = l₂ := by
            have hh := h
            simp at hh
            exact ⟨hh.1.symm, hh.2⟩
          refine ⟨by simp, ?_⟩
          rw [Lexer.input_adv h2, Lexer.input_adv h3]
          simp
        · obtain ⟨rfl, rfl⟩ : term = ['\r'] ∧ m.adv = l₂ := by
            have hh := h
            simp at hh
            exact ⟨hh.1.symm, hh.2⟩
          refine ⟨by simp, ?_⟩
          rw [Lexer.input_adv h2]
          simp
      · split at h
        · rename_i h3
          obtain ⟨rfl, rfl⟩ : term = [] ∧ m = l₂ := by
            simpa using h
          simp [h3]
        · cases h

theorem C7_witness :
    (['\r', '\n'] = ['\n'] ∨ ['\r', '\n'] = ['\n', '\r'] ∨ ['\r', '\n'] = ['\r'] ∨
      ['\r', '\n'] = ['\r', '\n'] ∨ ['\r', '\n'] = ([] : List Char)) ∧
    (skipTrailingWs ⟨[' ', '\r', '\n', 'b'], 3⟩).input =
      ['\r', '\n'] ++ (⟨['b'], 0⟩ : Lexer).input :=
  (C7_amended_newline_recognition ⟨[' ', '\r', '\n', 'b'], 3⟩).2 ['\r', '\n'] ⟨['b'], 0⟩
    (by decide)

/-- C7 counterexample: on input `"\n\ra"` the engine consumes the two
characters `"\n\r"` as one terminator, a form absent from the claim's list
(lone `'\n'`, lone `'\r'`, `"\r\n"`, end of input). -/
theorem C7_counterexample :
    newlineCheck (skipTrailingWs ⟨['\n', '\r', 'a'], 5⟩) =
      some (['\n', '\r'], ⟨['a'], 1⟩) ∧
    ¬(['\n', '\r'] = ['\n'] ∨ ['\n', '\r'] = ['\r'] ∨ ['\n', '\r'] = ['\r', '\n'] ∨
      ['\n', '\r'] = ([] : List Char)) := by
  decide

/-- C4 (amended): for every document, when the engine is driven from the
fresh state with all token kinds requested until it declines at end of input,
and no INDENT was ever emitted with the stack already at capacity (no
`overflow`), the INDENT and DEDENT counts are equal.  The unamended claim
fails when nesting exceeds the capacity: see the counterexample. -/
theorem C4_amended_balanced_without_overflow (fuel : Nat) (l : Lexer)
    (hfin : (drive fuel createScanner l).finished = true)
    (hov : (drive fuel createScanner l).overflow = false) :
    (drive fuel createScanner l).toks.count TokenType.INDENT =
      (drive fuel createScanner l).toks.count TokenType.DEDENT := by
  obtain ⟨hinv, hd, hp, heq⟩ := drive_spec fuel createScanner l createScanner_inv hfin hov
  have h1 : 1 ≤ (drive fuel createScanner l).scanner.indent_depth := hinv.2.1
  have e1 : createScanner.indent_depth = 1 := rfl
  have e2 : createScanner.pending_dedents = 0 := rfl
  omega

theorem C4_witness :
    (drive 32 createScanner ⟨['x', '\n', ' ', ' ', 'x', '\n', 'x', '\n'], 0⟩).toks.count
        TokenType.INDENT =
      (drive 32 createScanner ⟨['x', '\n', ' ', ' ', 'x', '\n', 'x', '\n'], 0⟩).toks.count
        TokenType.DEDENT :=
  C4_amended_balanced_without_overflow 32 ⟨['x', '\n', ' ', ' ', 'x', '\n', 'x', '\n'], 0⟩
    (by decide) (by decide)

set_option maxRecDepth 8000 in
/-- C4 counterexample: driving the fresh engine over the 101-level staircase
document reaches end of input at depth 1 having emitted 100 INDENT tokens but
only 99 DEDENT tokens — the 100th INDENT was emitted while the stack was full
(scanner.c lines 176–182), so no matching level was ever pushed or popped. -/
theorem C4_counterexample :
    ((drive 500 createScanner ⟨deepDoc, 0⟩).finished,
     (drive 500 createScanner ⟨deepDoc, 0⟩).lexer.input,
     (drive 500 createScanner ⟨deepDoc, 0⟩).scanner.indent_depth,
     (drive 500 createScanner ⟨deepDoc, 0⟩).toks.count TokenType.INDENT,
     (drive 500 createScanner ⟨deepDoc, 0⟩).toks.count TokenType.DEDENT) =
    (true, [], 1, 100, 99) := by
  decide

set_option maxRecDepth 2000 in
/-- C6: driving the fresh engine over the document with content lines at
widths 0, 4, 8, 4, 0 finishes and produces exactly INDENT, INDENT, DEDENT,
DEDENT once NEWLINE tokens are filtered out. -/
theorem C6_structural_token_stream :
    (drive 64 createScanner ⟨docWidths04840, 0⟩).finished = true ∧
    (drive 64 createScanner ⟨docWidths04840, 0⟩).toks.filter
        (fun t => !(t == TokenType.NEWLINE)) =
      [TokenType.INDENT, TokenType.INDENT, TokenType.DEDENT, TokenType.DEDENT] := by
  decide

/-- C8: deserialization is total and defensive.  (a) An empty buffer yields
the fresh state: no pending dedents, depth 1, live stack `[0]`.  (b) A
one-byte buffer restores `pending_dedents` from that byte and leaves the
rest at the fresh values.  (c) A declared depth above the capacity is clamped
to `MAX_INDENT_DEPTH`.  (d) Stack entries are restored only while at least
two bytes of the buffer remain (entry `j` needs bytes `2j` and `2j+1` of the
tail): entries below `min depth (tail.length / 2)` are decoded, entries above
are left untouched (entry 0 having first been reset to 0), so a truncated
tail stops restoration without reading past the buffer. -/
theorem C8_deserialize_defensive (s₀ : Scanner)
    (hlen0 : s₀.indent_stack.length = MAX_INDENT_DEPTH) :
    ((deserialize s₀ []).pending_dedents = 0 ∧ (deserialize s₀ []).indent_depth = 1 ∧
      (deserialize s₀ []).indent_stack.take 1 = [0]) ∧
    (∀ b : Nat, b < 256 →
      (deserialize s₀ [b]).pending_dedents = b ∧ (deserialize s₀ [b]).indent_depth = 1 ∧
      (deserialize s₀ [b]).indent_stack.take 1 = [0]) ∧
    (∀ (p d : Nat) (rest : List Nat), d < 256 → MAX_INDENT_DEPTH < d →
      (deserialize s₀ (p :: d :: rest)).indent_depth = MAX_INDENT_DEPTH) ∧
    (∀ (p d : Nat) (rest : List Nat), d < 256 →
      (∀ j, j < min (if MAX_INDENT_DEPTH < d then MAX_INDENT_DEPTH else d)
          (rest.length / 2) →
        (deserialize s₀ (p :: d :: rest)).indent_stack.getD j 0 =
          rest.getD (2 * j) 0 % 256 + rest.getD (2 * j + 1) 0 % 256 * 256) ∧
      (∀ j, min (if MAX_INDENT_DEPTH < d then MAX_INDENT_DEPTH else d)
          (rest.length / 2) ≤ j → j ≠ 0 →
        (deserialize s₀ (p :: d :: rest)).indent_stack.getD j 0 =
          s₀.indent_stack.getD j 0) ∧
      (min (if MAX_INDENT_DEPTH < d then MAX_INDENT_DEPTH else d) (rest.length / 2) = 0 →
        (deserialize s₀ (p :: d :: rest)).indent_stack.getD 0 0 = 0)) := by
  have htake : (s₀.indent_stack.set 0 0).take 1 = [0] := by
    cases hst : s₀.indent_stack with
    | nil => rw [hst] at hlen0; simp [MAX_INDENT_DEPTH] at hlen0
    | cons a t => simp
  have hbig : ∀ (p d : Nat) (rest : List Nat), d < 256 →
      deserialize s₀ (p :: d :: rest) =
      { indent_stack := deserializeGo (p :: d :: rest)
          (if MAX_INDENT_DEPTH < d then MAX_INDENT_DEPTH else d) (p :: d :: rest).length
          (if MAX_INDENT_DEPTH < d then MAX_INDENT_DEPTH else d) 0 (s₀.indent_stack.set 0 0)
        indent_depth := if MAX_INDENT_DEPTH < d then MAX_INDENT_DEPTH else d
        pending_dedents := (p :: d :: rest).getD 0 0 % 256 } := by
    intro p d rest hd
    have hg1 : (p :: d :: rest).getD 1 0 % 256 = d := by
      rw [List.getD_cons_succ, List.getD_cons_zero, Nat.mod_eq_of_lt hd]
    simp only [deserialize]
    rw [if_neg (show ¬((p :: d :: rest).length = 0) by simp),
      if_neg (show ¬((p :: d :: rest).length ≤ 1) by simp)]
    rw [hg1]
  refine ⟨?_, ?_, ?_, ?_⟩
  · simp only [deserialize]
    rw [if_pos (show ([] : List Nat).length = 0 from rfl)]
    exact ⟨rfl, rfl, htake⟩
  · intro b hb
    simp only [deserialize]
    rw [if_neg (show ¬(([b] : List Nat).length = 0) by simp),
      if_pos (show ([b] : List Nat).length ≤ 1 by simp)]
    refine ⟨?_, rfl, htake⟩
    show [b].getD 0 0 % 256 = b
    simp [Nat.mod_eq_of_lt hb]
  · intro p d rest hd hcap
    rw [hbig p d rest hd]
    show (if MAX_INDENT_DEPTH < d then MAX_INDENT_DEPTH else d) = MAX_INDENT_DEPTH
    rw [if_pos hcap]
  · intro p d rest hd
    have hstk : (deserialize s₀ (p :: d :: rest)).indent_stack =
        deserializeGo (p :: d :: rest)
          (if MAX_INDENT_DEPTH < d then MAX_INDENT_DEPTH else d) (p :: d :: rest).length
          (if MAX_INDENT_DEPTH < d then MAX_INDENT_DEPTH else d) 0
          (s₀.indent_stack.set 0 0) := by
      rw [hbig p d rest hd]
    have hlen2 : (p :: d :: rest).length = 2 + rest.length := by
      simp
      omega
    have hD : (if MAX_INDENT_DEPTH < d then MAX_INDENT_DEPTH else d) ≤ 100 := by
      simp only [MAX_INDENT_DEPTH]
      split <;> omega
    have hspec := deserializeGo_spec (p :: d :: rest)
      (if MAX_INDENT_DEPTH < d then MAX_INDENT_DEPTH else d) (p :: d :: rest).length
      (if MAX_INDENT_DEPTH < d then MAX_INDENT_DEPTH else d) 0
      (s₀.indent_stack.set 0 0) (by omega)
    refine ⟨?_, ?_, ?_⟩
    · intro j hj
      rw [hstk, hspec j]
      rw [if_pos ⟨by omega, by omega, by rw [hlen2]; omega,
        by rw [List.length_set, hlen0]; simp only [MAX_INDENT_DEPTH]; omega⟩]
      have e2 : 2 + 2 * j + 1 = 2 * j + 1 + 1 + 1 := by omega
      have e1 : 2 + 2 * j = 2 * j + 1 + 1 := by omega
      rw [e2, e1, List.getD_cons_succ, List.getD_cons_succ, List.getD_cons_succ,
        List.getD_cons_succ]
    · intro j hk hj0
      rw [hstk, hspec j]
      rw [if_neg (by rw [hlen2]; omega)]
      rw [getD_set_spec, if_neg (by omega)]
    · intro hk
      rw [hstk, hspec 0]
      rw [if_neg (by rw [hlen2]; omega)]
      rw [getD_set_spec, if_pos ⟨rfl, by rw [hlen0]; simp [MAX_INDENT_DEPTH]⟩]

theorem C8_witness :
    (deserialize createScanner []).pending_dedents = 0 ∧
    (deserialize createScanner [7]).pending_dedents = 7 ∧
    (deserialize createScanner [0, 200]).indent_depth = MAX_INDENT_DEPTH ∧
    (deserialize createScanner [0, 3, 5, 1, 9]).indent_stack.getD 0 0 = 5 + 1 * 256 := by
  have h := C8_deserialize_defensive createScanner (by decide)
  refine ⟨h.1.1, (h.2.1 7 (by decide)).1, h.2.2.1 0 200 [] (by decide) (by decide), ?_⟩
  have h4 := (h.2.2.2 0 3 [5, 1, 9] (by decide)).1 0 (by decide)
  simpa using h4
